import Mathlib

/-!
Verification of the copybook-converter repository (picture.py, lexer.py,
copybook.py).  Each Python function that the claims touch is embedded as an
executable Lean definition; theorems about those definitions settle the
claims.
-/

namespace Cpycvt

/-! ## picture.py: data model -/

/-- Embeds `PictureType` (picture.py). -/
inductive PictureType where
  | pNone
  | pString
  | pNumeric
deriving DecidableEq, Repr

/-- Embeds class `Picture` (picture.py).  `length`, `scale` are Python ints
that only ever receive nonnegative values (`len`, `int` of a digit string). -/
structure Picture where
  pictureType : PictureType := .pNone
  length : Nat := 0
  scale : Nat := 0
  default : String := ""
  signed : Bool := false
deriving DecidableEq, Repr

/-! ## lexer.py: the rule-based lexer engine, instantiated with the picture
rule set of `PictureDecoder._setup_lexer`.

Tokens here carry only kind and text: the picture decoder never reads the
line/column fields of its tokens, and no claim about the picture grammar
mentions them. -/

/-- Embeds `PictureDecoder._TokenTypes` (picture.py). -/
inductive PicTokKind where
  | tX
  | t9
  | tV
  | tS
  | tLen
  | tEol
deriving DecidableEq, Repr

/-- A token produced by the lexer engine for the picture grammar. -/
structure PicTok where
  kind : PicTokKind
  text : String
deriving DecidableEq, Repr

/-- Embeds class `Rule` (lexer.py) as used by the picture decoder: a rule's
compiled regex becomes a matcher that, applied to the remaining input,
returns `group(0)` (the consumed text) and `group(rule.group)` (the emitted
text), or `none` when the pattern does not match at the current offset.
A rule whose regex is empty is never compiled (`Rule.compile`), hence its
matcher returns `none` everywhere. -/
structure LexRule where
  kind : PicTokKind
  matchFn : List Char → Option (List Char × List Char)
  isWs : Bool := false
  isComment : Bool := false

/-- Matcher for `X+` with `re.IGNORECASE`. -/
def matchXRun (s : List Char) : Option (List Char × List Char) :=
  let run := s.takeWhile (fun c => c = 'X' ∨ c = 'x')
  if run.isEmpty then none else some (run, run)

/-- Matcher for `9+`. -/
def match9Run (s : List Char) : Option (List Char × List Char) :=
  let run := s.takeWhile (fun c => c = '9')
  if run.isEmpty then none else some (run, run)

/-- Matcher for a single literal character. -/
def matchLit (lit : Char) (s : List Char) : Option (List Char × List Char) :=
  match s with
  | c :: _ => if c = lit then some ([lit], [lit]) else none
  | [] => none

/-- Matcher for the rule `\((\d+)\)` with `group=1`.  The greedy digit run
followed by a mandatory `)` is equivalent to the maximal digit run: any
backtracked shorter run would be followed by a digit, not `)`. -/
def matchLen (s : List Char) : Option (List Char × List Char) :=
  match s with
  | '(' :: rest =>
      let ds := rest.takeWhile (fun c => c.isDigit)
      if ds.isEmpty then none
      else
        match rest.drop ds.length with
        | ')' :: _ => some ('(' :: ds ++ [')'], ds)
        | _ => none
  | _ => none

def xRule : LexRule := ⟨.tX, matchXRun, false, false⟩
def nineRule : LexRule := ⟨.t9, match9Run, false, false⟩
def vRule : LexRule := ⟨.tV, matchLit 'V', false, false⟩
def sRule : LexRule := ⟨.tS, matchLit 'S', false, false⟩
def lenRule : LexRule := ⟨.tLen, matchLen, false, false⟩
/-- The EOF rule has an empty regex, so `Rule.compile` leaves its pattern
`None` and `Lexer.parse` skips it when matching. -/
def eolRule : LexRule := ⟨.tEol, fun _ => none, false, false⟩

/-- The rule set registered by `PictureDecoder._setup_lexer`, in registration
order. -/
def picRules : List LexRule := [xRule, nineRule, vRule, sRule, lenRule, eolRule]

/-- Embeds the matching pass of `Lexer.parse`: every registered rule whose
pattern matches the remaining input, in registration order. -/
def matchedRules (rules : List LexRule) (s : List Char) :
    List (LexRule × List Char × List Char) :=
  rules.filterMap (fun r => (r.matchFn s).map (fun m => (r, m)))

/-- Embeds the longest-match scan of `Lexer.parse` (`ln = 0; index = 0;
strictly-greater update`).  Carrying the first match as the initial best is
equivalent to the source's `ln = 0` start: lengths are nonnegative and the
comparison is strict, so the scan keeps index 0 unless a strictly longer
match appears. -/
def pickAux (best : LexRule × List Char × List Char) :
    List (LexRule × List Char × List Char) → LexRule × List Char × List Char
  | [] => best
  | x :: xs => if best.2.1.length < x.2.1.length then pickAux x xs else pickAux best xs

def pickBest : List (LexRule × List Char × List Char) →
    Option (LexRule × List Char × List Char)
  | [] => none
  | x :: xs => some (pickAux x xs)

/-- Exceptions the picture decoder path can raise: `ParserError` from the
lexer when no rule matches, the empty-input quirk of `Lexer.parse` (with
falsy `data` the lexer re-reads stale state; never reached from the parser,
whose tokens are nonempty), and `IndexError` from the decoder's one-token
lookahead past the end of the token list. -/
inductive PicErr where
  | lexNoMatch
  | emptyInput
  | indexError
deriving DecidableEq, Repr

/-- Embeds the token loop of `Lexer.parse` for the picture rules.  The fuel
argument only bounds the recursion: every picture rule consumes at least one
character per match, so `input.length + 1` fuel is never exhausted. -/
def lexLoop (rules : List LexRule) : Nat → List Char → List PicTok →
    Except PicErr (List PicTok)
  | 0, _, _ => .error .lexNoMatch
  | fuel + 1, s, acc =>
      match pickBest (matchedRules rules s) with
      | none => .error .lexNoMatch
      | some (r, g0, g) =>
          let acc' := if r.isWs || r.isComment then acc
                      else acc ++ [⟨r.kind, g.asString⟩]
          let s' := s.drop g0.length
          if s'.isEmpty then .ok (acc' ++ [⟨.tEol, "<EOF>"⟩])
          else lexLoop rules fuel s' acc'

/-- Embeds `Lexer.parse` as invoked by `PictureDecoder.decode` (fresh token
list, the EOF rule appends one terminal token). -/
def lexPic (s : String) : Except PicErr (List PicTok) :=
  let cs := s.toList
  if cs.isEmpty then .error .emptyInput
  else lexLoop picRules (cs.length + 1) cs []

/-! ## picture.py: the decoder state machine -/

/-- Embeds `PictureDecoder._State` (picture.py).  `tMultiX` and `tMulti9`
are declared by the source but never assigned. -/
inductive PicState where
  | tBegin
  | tSingleX
  | tMultiX
  | tSingle9
  | tMulti9
  | tWaitEol
  | tWaitFixedPoint
deriving DecidableEq, Repr

/-- Numeric value of a digit string, as `int()` computes it on the all-digit
texts produced by the `(\d+)` capture group. -/
def natOfDigits (s : List Char) : Nat :=
  s.foldl (fun a c => a * 10 + (c.toNat - '0'.toNat)) 0

/-- Embeds the token loop of `PictureDecoder.decode`.  Result `none` models
an uncaught `IndexError` from `tokens[token_idx+1]`; `some none` models the
explicit `return None`; falling off the end of the token list returns the
accumulated picture, whatever the state.  States with no matching branch in
the source's `if`/`elif` chain (`tMultiX`, `tMulti9`) change nothing and move
to the next token. -/
def decodeLoop : PicState → Picture → List PicTok → Option (Option Picture)
  | _, pic, [] => some (some pic)
  | st, pic, t :: rest =>
      match st with
      | .tBegin =>
          match t.kind with
          | .tX =>
              if pic.pictureType ≠ PictureType.pNone then some none
              else
                let pic := { pic with pictureType := .pString }
                if t.text.length = 1 then decodeLoop .tSingleX pic rest
                else decodeLoop .tWaitEol { pic with length := t.text.length } rest
          | .t9 =>
              let pic := { pic with pictureType := .pNumeric }
              if t.text.length = 1 then decodeLoop .tSingle9 pic rest
              else decodeLoop .tWaitFixedPoint { pic with length := t.text.length } rest
          | .tS =>
              decodeLoop .tBegin { pic with signed := true, pictureType := .pNumeric } rest
          | .tV =>
              decodeLoop .tWaitFixedPoint { pic with length := 0, pictureType := .pNumeric } rest
          | _ => some none
      | .tSingleX =>
          match t.kind with
          | .tLen => decodeLoop .tWaitEol { pic with length := natOfDigits t.text.toList } rest
          | .tEol => decodeLoop .tSingleX { pic with length := 1 } rest
          | _ => some none
      | .tSingle9 =>
          match t.kind with
          | .tLen =>
              decodeLoop .tWaitFixedPoint { pic with length := natOfDigits t.text.toList } rest
          | .tEol => decodeLoop .tSingle9 { pic with length := 1 } rest
          | .tV => decodeLoop .tWaitFixedPoint pic rest
          | _ => some none
      | .tWaitFixedPoint =>
          match t.kind with
          | .tV => decodeLoop .tWaitFixedPoint pic rest
          | .t9 =>
              if t.text.length = 1 then
                match rest with
                | [] => none
                | t2 :: rest2 =>
                    if t2.kind = PicTokKind.tLen then
                      let sc := natOfDigits t2.text.toList
                      decodeLoop .tWaitEol
                        { pic with scale := sc, length := pic.length + sc } rest2
                    else
                      decodeLoop .tWaitEol
                        { pic with scale := t.text.length,
                                   length := pic.length + t.text.length } (t2 :: rest2)
              else
                decodeLoop .tWaitEol
                  { pic with scale := t.text.length,
                             length := pic.length + t.text.length } rest
          | .tEol => decodeLoop .tWaitFixedPoint pic rest
          | _ => some none
      | .tWaitEol =>
          match t.kind with
          | .tEol => decodeLoop .tWaitEol pic rest
          | _ => some none
      | .tMultiX => decodeLoop .tMultiX pic rest
      | .tMulti9 => decodeLoop .tMulti9 pic rest

/-- Embeds `PictureDecoder.decode`: tokenize with the picture rule set (a
lexer `ParserError` propagates uncaught), then run the state machine.
`.ok none` is the source's `return None`; `.error` models a propagated
exception. -/
def decodePic (s : String) : Except PicErr (Option Picture) :=
  match lexPic s with
  | .error e => .error e
  | .ok toks =>
      match decodeLoop .tBegin { signed := false, length := 0 } toks with
      | none => .error .indexError
      | some r => .ok r

end Cpycvt

namespace Cpycvt

/-! ## copybook.py: data model -/

/-- Embeds `_NodeType` (copybook.py). -/
inductive NodeType where
  | nNone
  | nRecord
  | nPicture
  | nEnum
deriving DecidableEq, Repr

/-- Embeds `_UsageType` (copybook.py). -/
inductive UsageType where
  | uNone
  | uPacked
  | uDisplay
  | uBinary
deriving DecidableEq, Repr

/-- Embeds class `Node` (copybook.py), fields in constructor order with the
constructor's default values.  `enumSet` distinguishes Python's `None` from
a list, matching the source's truthiness tests. -/
structure Node where
  nodeName : String
  nodeLevel : Nat
  nodeType : NodeType
  nodePicture : Option Picture := none
  redefines : Option String := none
  occurs : Nat := 1
  usage : UsageType := .uNone
  enumSet : Option (List String) := none
  indexedBy : Option String := none
deriving DecidableEq, Repr

/-- Truthiness of `node.enum_set` (`None` and `[]` are falsy). -/
def enumTruthy : Option (List String) → Bool
  | none => false
  | some l => !l.isEmpty

/-! ## copybook.py: tokenizer -/

/-- Embeds `_TokenEnum` (copybook.py). -/
inductive CTokKind where
  | tText
  | tPeriod
  | tEof
deriving DecidableEq, Repr

/-- Embeds class `Token` of copybook.py (`up_text` is recomputed on demand
rather than stored; it is a pure function of `text`). -/
structure CTok where
  kind : CTokKind
  text : String
  line : Nat
  col : Nat
deriving DecidableEq, Repr

/-- ASCII upper-casing, as `str.upper` acts on the ASCII copybook keywords
compared against it. -/
def upText (t : CTok) : String := (t.text.toList.map Char.toUpper).asString

/-- Embeds the local `State` enum of `tokenize` (copybook.py).  `sText` and
`sPeriod` are declared but never assigned by the source. -/
inductive TokState where
  | sStart
  | sText
  | sWs
  | sPeriod
deriving DecidableEq, Repr

/-- Exceptions raised out of `tokenize`/`parse_copybook`:
`CopybookException` with the offending token's position, the tokenizer's
unreachable `Unhandled state` raise, and the undocumented built-in
exceptions `ValueError` (from `int()`), `IndexError` (from a lookahead past
the token list) and `AttributeError` (from a `None` attribute access), plus
a `ParserError` escaping from the picture decoder's lexer. -/
inductive PErr where
  | copybookErr (line col : Nat)
  | unhandledState
  | valueErr
  | indexErr
  | attrErr
  | picParserErr (e : PicErr)
deriving DecidableEq, Repr

def wsChar (c : Char) : Bool := c = ' ' || c = '\t' || c = '\n'

/-- Embeds the character loop of `tokenize` (copybook.py).  Arguments mirror
the source's mutable state: current state, `line`, `col`, the pending
`s_token` buffer, and the accumulated token list; the trailing `col + 1`
of each branch is the source's unconditional `col += 1` at the end of the
loop body.  The `[]` case is the code after the loop: flush the pending
buffer, append the EOF token. -/
def tokLoop : TokState → Nat → Nat → List Char → List CTok → List Char →
    Except PErr (List CTok)
  | _, line, col, buf, acc, [] =>
      let acc1 := if buf.isEmpty then acc
                  else acc ++ [⟨.tText, buf.asString, line, col⟩]
      .ok (acc1 ++ [⟨.tEof, "(eof)", line, col⟩])
  | st, line, col, buf, acc, c :: cs =>
      match st with
      | .sStart =>
          if wsChar c then
            if c = '\n' then tokLoop .sWs (line + 1) (0 + 1) buf acc cs
            else tokLoop .sWs line (col + 1) buf acc cs
          else if c = '.' then
            let acc1 := if buf.isEmpty then acc
                        else acc ++ [⟨.tText, buf.asString, line, col⟩]
            tokLoop .sStart line (col + 1) []
              (acc1 ++ [⟨.tPeriod, ".", line, col⟩]) cs
          else tokLoop .sStart line (col + 1) (buf ++ [c]) acc cs
      | .sWs =>
          let acc1 := if buf.isEmpty then acc
                      else acc ++ [⟨.tText, buf.asString, line, col⟩]
          if wsChar c then
            if c = '\n' then tokLoop .sWs (line + 1) (col + 1) [] acc1 cs
            else tokLoop .sWs line (col + 1) [] acc1 cs
          else if c = '.' then
            tokLoop .sWs line (col + 1) []
              (acc1 ++ [⟨.tPeriod, ".", line, col⟩]) cs
          else tokLoop .sStart line (col + 1) [c] acc1 cs
      | .sPeriod =>
          let acc1 := if buf.isEmpty then acc
                      else acc ++ [⟨.tText, buf.asString, line, col⟩]
          tokLoop .sStart line (col + 1) []
            (acc1 ++ [⟨.tPeriod, ".", line, col⟩]) cs
      | .sText => .error .unhandledState

/-- Embeds `tokenize` (copybook.py): `line = col = 1`, start state, empty
buffer. -/
def tokenize (s : String) : Except PErr (List CTok) :=
  tokLoop .sStart 1 1 [] [] s.toList

/-! ## copybook.py: regex models and helpers for `parse_copybook` -/

/-- Truthiness of `re_int.match(text)`: the anchored `\d+` matches iff the
text starts with a digit. -/
def reIntMatch (s : String) : Bool :=
  match s.toList with
  | c :: _ => c.isDigit
  | [] => false

/-- Truthiness of `re_identifier.match(text)`: the anchored
`[A-Za-z\d_\-]+` matches iff the first character is in the class. -/
def reIdentMatch (s : String) : Bool :=
  match s.toList with
  | c :: _ => c.isAlpha || c.isDigit || c = '_' || c = '-'
  | [] => false

/-- `re_string.match(text)` with `re_string = r"\'([^']+)\'"`, returning
`group(0)` (quote, inner run, quote) when the text starts with a quoted
literal.  The greedy `[^']+` followed by a mandatory quote is equivalent to
the maximal non-quote run: a backtracked shorter run is followed by a
non-quote character. -/
def reStringG0 (s : String) : Option String :=
  match s.toList with
  | '\'' :: rest =>
      let inner := rest.takeWhile (fun c => c ≠ '\'')
      if inner.isEmpty then none
      else
        match rest.drop inner.length with
        | '\'' :: _ => some ('\'' :: (inner ++ ['\''])).asString
        | _ => none
  | _ => none

/-- Models Python `int()` on a token text whose first character is a decimal
digit (the only texts it is applied to, after `re_int.match` succeeds):
such a text converts iff it is a digit string with single underscores
between digits; token texts contain no whitespace or sign. -/
def pyInt (s : String) : Option Nat :=
  let cs := s.toList
  let headDigit := match cs.head? with | some c => c.isDigit | none => false
  let lastDigit := match cs.getLast? with | some c => c.isDigit | none => false
  let noDoubleUnderscore := (cs.zip cs.tail).all (fun p => !(p.1 = '_' && p.2 = '_'))
  if cs.all (fun c => c.isDigit || c = '_') && headDigit && lastDigit && noDoubleUnderscore then
    some (natOfDigits (cs.filter (fun c => c ≠ '_')))
  else none

/-- Embeds `decode_usage` (copybook.py). -/
def decodeUsage (u : String) : Option UsageType :=
  if u = "DISPLAY" then some .uDisplay
  else if u = "BINARY" then some .uBinary
  else if u = "COMP-3" ∨ u = "COMPUTATIONAL-3" then some .uPacked
  else none

/-- Embeds the local `State` enum of `parse_copybook` (copybook.py). -/
inductive CState where
  | sStart
  | sSentence
  | sClause
  | sRedefines
  | sOccurs
  | sPicture
  | sValue
  | sUsage
  | sEnum
  | sIndexed
deriving DecidableEq, Repr

/-- Python attribute access on the parser's `node` variable (`None` before
the first sentence): `none` raises `AttributeError`. -/
def getNode : Option Node → Except PErr Node
  | some n => .ok n
  | none => .error .attrErr

end Cpycvt

namespace Cpycvt

/-- Embeds the `consume` closure of `parse_copybook` (copybook.py) as a
recursion over the token list.  Arguments mirror the closure's mutable
state: current state, the pending `level`, the `node` under construction
(`none` before the first sentence), and the output `node_list`.  Exhausting
the token list is the end of the `while` loop: `parse_copybook` then
returns the accumulated list.  Lookaheads read `tokens[token_idx + 1]`,
so an empty tail is an `IndexError`.  The leading fuel argument only bounds
the recursion: every iteration consumes at least one token, so the
`tokens.length` fuel supplied by `parseCopybook` is never exhausted while
tokens remain. -/
def consume : Nat → CState → Nat → Option Node → List Node → List CTok →
    Except PErr (List Node)
  | _, _, _, _, acc, [] => .ok acc
  | 0, _, _, _, acc, _ :: _ => .ok acc
  | fuel + 1, st, lvl, node, acc, t :: rest =>
      match st with
      | .sStart =>
          if upText t = "EJECT" then consume fuel .sStart lvl node acc rest
          else if t.kind = CTokKind.tText && reIntMatch t.text then
            match pyInt t.text with
            | none => .error .valueErr
            | some l => consume fuel .sSentence l node acc rest
          else if t.kind = CTokKind.tEof then .ok acc
          else .error (.copybookErr t.line t.col)
      | .sSentence =>
          if t.kind = CTokKind.tText && reIdentMatch t.text then
            consume fuel .sClause lvl
              (some { nodeName := t.text, nodeLevel := lvl, nodeType := .nNone }) acc rest
          else .error (.copybookErr t.line t.col)
      | .sClause =>
          if t.kind = CTokKind.tPeriod then
            match getNode node with
            | .error e => .error e
            | .ok n =>
                let ty := if n.nodePicture.isSome then NodeType.nPicture
                          else if enumTruthy n.enumSet then NodeType.nEnum
                          else NodeType.nRecord
                let n' := { n with nodeType := ty }
                consume fuel .sStart lvl (some n') (acc ++ [n']) rest
          else if upText t = "REDEFINES" then consume fuel .sRedefines lvl node acc rest
          else if upText t = "OCCURS" then consume fuel .sOccurs lvl node acc rest
          else if upText t = "PIC" ∨ upText t = "PICTURE" then
            consume fuel .sPicture lvl node acc rest
          else if upText t = "VALUE" then consume fuel .sValue lvl node acc rest
          else if upText t = "USAGE" then consume fuel .sUsage lvl node acc rest
          else if upText t = "DISPLAY" ∨ upText t = "BINARY" ∨ upText t = "COMP-3"
              ∨ upText t = "COMPUTATIONAL-3" then
            match decodeUsage (upText t) with
            | none => .error (.copybookErr t.line t.col)
            | some u =>
                match getNode node with
                | .error e => .error e
                | .ok n => consume fuel .sClause lvl (some { n with usage := u }) acc rest
          else if t.text = "INDEXED" then consume fuel .sIndexed lvl node acc rest
          else .error (.copybookErr t.line t.col)
      | .sRedefines =>
          if t.kind = CTokKind.tText then
            match getNode node with
            | .error e => .error e
            | .ok n => consume fuel .sClause lvl (some { n with redefines := some t.text }) acc rest
          else .error (.copybookErr t.line t.col)
      | .sOccurs =>
          if t.kind = CTokKind.tText && reIntMatch t.text then
            match pyInt t.text with
            | none => .error .valueErr
            | some c =>
                match getNode node with
                | .error e => .error e
                | .ok n =>
                    let node' := some { n with occurs := c }
                    match rest with
                    | [] => .error .indexErr
                    | t2 :: rest2 =>
                        if upText t2 = "TIMES" then consume fuel .sClause lvl node' acc rest2
                        else consume fuel .sClause lvl node' acc rest
          else .error (.copybookErr t.line t.col)
      | .sPicture =>
          match decodePic (upText t) with
          | .error e => .error (.picParserErr e)
          | .ok none => .error (.copybookErr t.line t.col)
          | .ok (some p) =>
              match getNode node with
              | .error e => .error e
              | .ok n => consume fuel .sClause lvl (some { n with nodePicture := some p }) acc rest
      | .sValue =>
          let valueText := match reStringG0 t.text with
                           | some g0 => g0
                           | none => t.text
          match getNode node with
          | .error e => .error e
          | .ok n =>
              match n.nodePicture with
              | some p =>
                  consume fuel .sValue lvl
                    (some { n with nodePicture := some { p with default := valueText } })
                    acc rest
              | none =>
                  if lvl = 88 then
                    let node' := some { n with enumSet := some [valueText] }
                    match rest with
                    | [] => .error .indexErr
                    | t2 :: _rest2 =>
                        if t2.kind = CTokKind.tPeriod then
                          consume fuel .sClause lvl node' acc rest
                        else consume fuel .sEnum lvl node' acc rest
                  else .error (.copybookErr t.line t.col)
      | .sUsage =>
          if upText t = "IS" then consume fuel .sUsage lvl node acc rest
          else
            match decodeUsage (upText t) with
            | none => .error (.copybookErr t.line t.col)
            | some u =>
                match getNode node with
                | .error e => .error e
                | .ok n => consume fuel .sClause lvl (some { n with usage := u }) acc rest
      | .sEnum =>
          let valueText := match reStringG0 t.text with
                           | some g0 => g0
                           | none => t.text
          match getNode node with
          | .error e => .error e
          | .ok n =>
              match n.enumSet with
              | none => .error .attrErr
              | some l =>
                  let node' := some { n with enumSet := some (l ++ [valueText]) }
                  match rest with
                  | [] => .error .indexErr
                  | t2 :: _rest2 =>
                      if t2.kind = CTokKind.tPeriod then
                        consume fuel .sClause lvl node' acc rest
                      else consume fuel .sEnum lvl node' acc rest
      | .sIndexed =>
          if t.text = "BY" then consume fuel .sIndexed lvl node acc rest
          else if t.kind = CTokKind.tText then
            match getNode node with
            | .error e => .error e
            | .ok n => consume fuel .sClause lvl (some { n with indexedBy := some t.text }) acc rest
          else .error (.copybookErr t.line t.col)

/-- Embeds `parse_copybook` (copybook.py): tokenize, then run `consume`
starting in `S_START` with `level = 0`, `node = None` and an empty
`node_list`. -/
def parseCopybook (s : String) : Except PErr (List Node) :=
  match tokenize s with
  | .error e => .error e
  | .ok toks => consume toks.length .sStart 0 none [] toks

end Cpycvt

namespace Cpycvt

/-! ## copybook.py: `TreeNode` and `build_node_tree`

`build_node_tree` mutates a pointer structure: a cursor `ptr` at the most
recently attached `TreeNode`, with parent back-references used only for the
upward walk.  Every attachment in the source happens on the cursor's
ancestor chain (the cursor itself, its parent, or the parent of an ancestor
found by the walk), and the cursor always moves to the freshly created
node, so a node's child list is final as soon as the cursor leaves its
subtree.  The mutable tree is therefore represented by its open ancestor
spine: a list of frames from the cursor (head) up to the synthetic root
(last), where each frame carries its node payload and its list of already
completed child subtrees; leaving a frame closes it into a subtree appended
to its parent frame's child list. -/

/-- A completed `TreeNode`: payload plus ordered children. -/
inductive TTree where
  | mk : Node → List TTree → TTree

def rootPayload : TTree → Node
  | .mk n _ => n

def rootLevel (t : TTree) : Nat := (rootPayload t).nodeLevel

/-- An open node on the spine: its payload and its completed children so
far. -/
structure Frame where
  payload : Node
  closed : List TTree

/-- Close an open frame into a completed subtree. -/
def closeFrame (f : Frame) : TTree := .mk f.payload f.closed

/-- `TreeNode.append`: a completed subtree becomes the next child. -/
def addClosed (f : Frame) (t : TTree) : Frame := ⟨f.payload, f.closed ++ [t]⟩

/-- Failures of `build_node_tree`: the explicit
`CopybookException('Could not find parent ...')`, and the `AttributeError`
raised by dereferencing the synthetic root's `parent` (which is `None`). -/
inductive BuildErr where
  | structural
  | attributeError
deriving DecidableEq, Repr

/-- Embeds the upward search of the `node.node_level < ptr.node.node_level`
branch: `search` starts at the cursor's parent (head of `anc`), `t` is the
completed subtree of the frame below `search` (initially the closed
cursor).  Stopping at level 0 is the `CopybookException`; on a level match
the new node is appended to `search.parent` (the next frame), which for
`search = root` would dereference `None` (`AttributeError`, unreachable
because the root's level 0 is tested first). -/
def walkLower (n : Node) : TTree → List Frame → Except BuildErr (Frame × List Frame)
  | _, [] => .error .attributeError
  | t, f :: rest =>
      let f' := addClosed f t
      if f'.payload.nodeLevel = 0 then .error .structural
      else if f'.payload.nodeLevel = n.nodeLevel then
        match rest with
        | [] => .error .attributeError
        | p :: rest' => .ok (⟨n, []⟩, addClosed p (closeFrame f') :: rest')
      else walkLower n (closeFrame f') rest

/-- Embeds one iteration of the `for node in node_list` loop of
`build_node_tree`: the three level comparisons against the cursor.  The
equal-level branch appends to `ptr.parent`; with the cursor at the
synthetic root this dereferences `None` (`AttributeError`). -/
def buildStep (st : Frame × List Frame) (n : Node) : Except BuildErr (Frame × List Frame) :=
  if st.1.payload.nodeLevel < n.nodeLevel then
    .ok (⟨n, []⟩, st.1 :: st.2)
  else if n.nodeLevel = st.1.payload.nodeLevel then
    match st.2 with
    | [] => .error .attributeError
    | p :: rest => .ok (⟨n, []⟩, addClosed p (closeFrame st.1) :: rest)
  else
    walkLower n (closeFrame st.1) st.2

/-- The synthetic root created by `build_node_tree`:
`Node('Root', 0, _NodeType.N_RECORD)`. -/
def rootNode : Node := { nodeName := "Root", nodeLevel := 0, nodeType := .nRecord }

/-- Initial state: cursor at the childless synthetic root. -/
def initState : Frame × List Frame := (⟨rootNode, []⟩, [])

/-- The `for` loop of `build_node_tree` over the node list. -/
def buildSteps (st : Frame × List Frame) : List Node → Except BuildErr (Frame × List Frame)
  | [] => .ok st
  | n :: ns =>
      match buildStep st n with
      | .error e => .error e
      | .ok st' => buildSteps st' ns

/-- Close the whole spine at the end of the loop, producing the tree that
`return root` exposes. -/
def collapse : Frame → List Frame → TTree
  | cur, [] => closeFrame cur
  | cur, f :: rest => collapse (addClosed f (closeFrame cur)) rest

/-- Embeds `build_node_tree` (copybook.py). -/
def buildNodeTree (ns : List Node) : Except BuildErr TTree :=
  match buildSteps initState ns with
  | .error e => .error e
  | .ok (cur, anc) => .ok (collapse cur anc)

/-! Tree invariants for the claims about `build_node_tree`. -/

/-- The children of one node share a single level value. -/
def sameLevels : List TTree → Bool
  | [] => true
  | c :: rest => rest.all (fun d => rootLevel d == rootLevel c)

mutual
/-- The `TreeNode` invariant: every child's level is strictly greater than
its parent's, recursively, and all siblings share one level. -/
def treeWfB : TTree → Bool
  | .mk n cs => childrenWfB n.nodeLevel cs && sameLevels cs

def childrenWfB (lvl : Nat) : List TTree → Bool
  | [] => true
  | c :: rest => decide (lvl < rootLevel c) && treeWfB c && childrenWfB lvl rest
end

/-- Well-formedness of a spine (cursor first, synthetic root last): levels
strictly decrease upward, each non-head frame's completed children are
well-formed subtrees rooted exactly at the level of the frame below it, and
the last frame is the synthetic root. -/
def spineOk : List Frame → Bool
  | [] => false
  | [f] => decide (f.payload = rootNode)
  | f :: g :: rest =>
      decide (g.payload.nodeLevel < f.payload.nodeLevel) &&
      g.closed.all (fun t => rootLevel t == f.payload.nodeLevel && treeWfB t) &&
      spineOk (g :: rest)

/-- Well-formedness of a builder state: the cursor is childless (it was
just pushed) and the spine is well formed. -/
def stateOk (st : Frame × List Frame) : Bool :=
  st.1.closed.isEmpty && spineOk (st.1 :: st.2)

def cursorLevel (st : Frame × List Frame) : Nat := st.1.payload.nodeLevel

def ancestorLevels (st : Frame × List Frame) : List Nat :=
  st.2.map (fun f => f.payload.nodeLevel)

end Cpycvt

namespace Cpycvt

/-! ## Claims settled by concrete evaluation -/

/-- Claim C1, amended: `decodePicture("XQ")` does not return `none`.  The
picture lexer finds no rule matching at `Q` and raises `ParserError`
(`String at ... did not match any rules`) before the state machine runs;
`decode` does not catch it, so the exception propagates past the caller's
`if not picture` grammar-error conversion at the PIC-clause site. -/
theorem decode_XQ_parser_error :
    decodePic "XQ" = .error .lexNoMatch
      ∧ parseCopybook "01 A PIC XQ." = .error (.picParserErr .lexNoMatch) := by
  constructor <;> rfl

/-- Claim C1, counterexample to the claim as stated: on `"XQ"` the decoder
does not return `none` (it raises a lexer `ParserError` instead). -/
theorem decode_XQ_not_none : decodePic "XQ" ≠ .ok none := by
  intro h
  exact Except.noConfusion h

/-- Claim C2: the three sample pictures decode to exactly the stated
descriptors: `X(20)` is a string of length 20; `S9(5)V99` is a signed
numeric of length 7 and scale 2; `V9(02)` is a numeric of length 2 and
scale 2. -/
theorem decode_sample_pictures :
    decodePic "X(20)" =
      .ok (some { pictureType := .pString, length := 20, scale := 0,
                  default := "", signed := false })
    ∧ decodePic "S9(5)V99" =
      .ok (some { pictureType := .pNumeric, length := 7, scale := 2,
                  default := "", signed := true })
    ∧ decodePic "V9(02)" =
      .ok (some { pictureType := .pNumeric, length := 2, scale := 2,
                  default := "", signed := false }) := by
  refine ⟨rfl, rfl, rfl⟩

/-- Claim C3: parsing the sample copybook yields exactly three nodes in
source order: `REC` (level 1, record), `FIELD-A` (level 5, string of length
10), `FIELD-B` (level 5, numeric of length 7 and scale 2, usage
packed-decimal). -/
theorem parse_sample_copybook :
    parseCopybook "01 REC.\n  05 FIELD-A PIC X(10).\n  05 FIELD-B PIC 9(5)V99 USAGE COMP-3." =
      .ok [{ nodeName := "REC", nodeLevel := 1, nodeType := .nRecord },
           { nodeName := "FIELD-A", nodeLevel := 5, nodeType := .nPicture,
             nodePicture := some { pictureType := .pString, length := 10 } },
           { nodeName := "FIELD-B", nodeLevel := 5, nodeType := .nPicture,
             nodePicture := some { pictureType := .pNumeric, length := 7, scale := 2 },
             usage := .uPacked }] := by
  rfl

/-- Claim C5 (code bug): the `VALUE`/`ENUM` handling stores
`re_string.match(token.text).group(0)` — the quoted literal `'Y'`
including its quotes — although the regex captures the inner content in
group 1; the stored enumeration value keeps the surrounding quotes instead
of being unwrapped to `Y`. -/
theorem value_literal_keeps_quotes :
    parseCopybook "88 FLAG VALUE 'Y'." =
      .ok [{ nodeName := "FLAG", nodeLevel := 88, nodeType := .nEnum,
             enumSet := some ["'Y'"] }]
    ∧ reStringG0 "'Y'" = some "'Y'" := by
  constructor <;> rfl

/-- Claim C9: a token in level-number position or occurs-count position
that starts with digits but carries trailing non-digit characters passes
the prefix-only `re_int.match`, and the `int()` of the full text then
raises an uncaught `ValueError` — not a `CopybookException`, and without
position information. -/
theorem parse_trailing_nondigit_value_error :
    parseCopybook "01A REC." = .error .valueErr
      ∧ parseCopybook "01 A OCCURS 2X." = .error .valueErr
      ∧ reIntMatch "01A" = true ∧ pyInt "01A" = none := by
  refine ⟨rfl, rfl, rfl, rfl⟩

end Cpycvt

namespace Cpycvt

/-- The longest-match scan returns an element of its input list such that
every earlier candidate is strictly shorter and every later candidate is no
longer: the longest match wins, ties broken by registration order. -/
theorem pickAux_split (xs : List (LexRule × List Char × List Char))
    (best : LexRule × List Char × List Char) :
    ∃ l1 l2, best :: xs = l1 ++ pickAux best xs :: l2
      ∧ (∀ x ∈ l1, x.2.1.length < (pickAux best xs).2.1.length)
      ∧ (∀ x ∈ l2, x.2.1.length ≤ (pickAux best xs).2.1.length) := by
  induction xs generalizing best with
  | nil => exact ⟨[], [], by simp [pickAux], by simp, by simp⟩
  | cons x xs ih =>
    rw [pickAux]
    by_cases h : best.2.1.length < x.2.1.length
    · simp only [if_pos h]
      obtain ⟨l1, l2, heq, hlt, hle⟩ := ih x
      have hxle : x.2.1.length ≤ (pickAux x xs).2.1.length := by
        cases l1 with
        | nil =>
            simp only [List.nil_append, List.cons.injEq] at heq
            rw [← heq.1]
        | cons b l1' =>
            simp only [List.cons_append, List.cons.injEq] at heq
            exact le_of_lt (hlt x (heq.1 ▸ List.mem_cons_self b l1'))
      refine ⟨best :: l1, l2, by rw [List.cons_append, ← heq], ?_, hle⟩
      intro y hy
      rcases List.mem_cons.mp hy with rfl | hy'
      · exact lt_of_lt_of_le h hxle
      · exact hlt y hy'
    · simp only [if_neg h]
      obtain ⟨l1, l2, heq, hlt, hle⟩ := ih best
      cases l1 with
      | nil =>
          simp only [List.nil_append, List.cons.injEq] at heq
          refine ⟨[], x :: xs, ?_, by simp, ?_⟩
          · simp [← heq.1]
          · intro y hy
            rcases List.mem_cons.mp hy with rfl | hy'
            · rw [← heq.1]; exact Nat.le_of_not_lt h
            · exact heq.2 ▸ hle y (heq.2 ▸ hy')
      | cons b l1' =>
          simp only [List.cons_append, List.cons.injEq] at heq
          have hbest : best.2.1.length < (pickAux best xs).2.1.length :=
            hlt best (heq.1 ▸ List.mem_cons_self b l1')
          refine ⟨best :: x :: l1', l2, ?_, ?_, hle⟩
          · rw [List.cons_append, List.cons_append, ← heq.2]
          · intro y hy
            rcases List.mem_cons.mp hy with rfl | hy'
            · exact hbest
            · rcases List.mem_cons.mp hy' with rfl | hy''
              · exact lt_of_le_of_lt (Nat.le_of_not_lt h) hbest
              · exact hlt y (heq.1 ▸ List.mem_cons_of_mem b hy'')

/-- Claim C6: at every offset where several rules match, `Lexer.parse`
selects the single longest matched text (`group(0)`), ties broken by
registration order — the selected match splits the in-order candidate list
so that everything registered earlier matched strictly shorter text and
everything later no longer; in particular `"9(05)"` lexes to one digit-run
token plus one explicit-count token, and decodes to length 5. -/
theorem lexer_longest_match_first :
    (∀ (rules : List LexRule) (s : List Char) (r : LexRule) (g0 g : List Char),
        pickBest (matchedRules rules s) = some (r, g0, g) →
        ∃ l1 l2, matchedRules rules s = l1 ++ (r, g0, g) :: l2
          ∧ (∀ x ∈ l1, x.2.1.length < g0.length)
          ∧ (∀ x ∈ l2, x.2.1.length ≤ g0.length))
    ∧ lexPic "9(05)" = .ok [⟨.t9, "9"⟩, ⟨.tLen, "05"⟩, ⟨.tEol, "<EOF>"⟩]
    ∧ decodePic "9(05)" = .ok (some { pictureType := .pNumeric, length := 5 }) := by
  refine ⟨?_, rfl, rfl⟩
  intro rules s r g0 g h
  match hm : matchedRules rules s with
  | [] => rw [hm, pickBest] at h; exact Option.noConfusion h
  | m :: ms =>
      rw [hm] at h
      have hp : pickAux m ms = (r, g0, g) := Option.some.inj h
      obtain ⟨l1, l2, heq, hlt, hle⟩ := pickAux_split ms m
      rw [hp] at heq hlt hle
      exact ⟨l1, l2, heq, hlt, hle⟩

/-- Witness for C6: at the start of `"9(05)"` exactly the digit-run rule
matches, and the scan selects it. -/
theorem lexer_longest_match_first_witness :
    ∃ l1 l2, matchedRules picRules ("9(05)".toList) = l1 ++ (nineRule, ['9'], ['9']) :: l2
      ∧ (∀ x ∈ l1, x.2.1.length < (['9'] : List Char).length)
      ∧ (∀ x ∈ l2, x.2.1.length ≤ (['9'] : List Char).length) :=
  lexer_longest_match_first.1 picRules "9(05)".toList nineRule ['9'] ['9'] rfl

end Cpycvt

namespace Cpycvt

/-- A character that extends a TEXT token: not whitespace, not a period. -/
def textChar (c : Char) : Bool := !wsChar c && c ≠ '.'

/-- Reference tokenization, following the spec's words: maximal runs of
non-whitespace non-period characters become TEXT tokens, periods become
single-character PERIOD tokens, whitespace separates. -/
def specToks : List Char → List (CTokKind × String)
  | [] => []
  | c :: cs =>
      if wsChar c then specToks cs
      else if c = '.' then (CTokKind.tPeriod, ".") :: specToks cs
      else (CTokKind.tText, (c :: cs.takeWhile textChar).asString)
        :: specToks (cs.dropWhile textChar)
termination_by l => l.length
decreasing_by
  · simp
  · simp
  · simp only [List.length_cons]
    exact Nat.lt_succ_of_le (List.dropWhile_suffix textChar).sublist.length_le

/-- Kind and text of a copybook token, forgetting positions. -/
def projTok (t : CTok) : CTokKind × String := (t.kind, t.text)

/-- Rewrite rules for the reference tokenization. -/
theorem specToks_ws {c : Char} (h : wsChar c = true) (cs : List Char) :
    specToks (c :: cs) = specToks cs := by
  rw [specToks, if_pos h]

theorem specToks_period (cs : List Char) :
    specToks ('.' :: cs) = (CTokKind.tPeriod, ".") :: specToks cs := by
  rw [specToks, if_neg (by decide), if_pos rfl]

theorem specToks_text {c : Char} (h1 : wsChar c = false) (h2 : ¬ c = '.')
    (cs : List Char) :
    specToks (c :: cs) = (CTokKind.tText, (c :: cs.takeWhile textChar).asString)
      :: specToks (cs.dropWhile textChar) := by
  rw [specToks, if_neg (by simp [h1]), if_neg h2]

/-- The tokenizer loop, started in either reachable state, succeeds and
produces exactly the reference tokens followed by one EOF token, whose line
field is the starting line plus the number of newlines consumed. -/
theorem tokLoop_run (cs : List Char) :
    (∀ line col acc, ∃ ts c2,
        tokLoop .sStart line col [] acc cs = .ok ts
        ∧ ts.map projTok = acc.map projTok ++ specToks cs ++ [(CTokKind.tEof, "(eof)")]
        ∧ ts.getLast? = some ⟨.tEof, "(eof)", line + cs.count '\n', c2⟩)
    ∧ (∀ line col acc buf, buf ≠ [] → ∃ ts c2,
        tokLoop .sStart line col buf acc cs = .ok ts
        ∧ ts.map projTok = acc.map projTok
            ++ (CTokKind.tText, (buf ++ cs.takeWhile textChar).asString)
              :: specToks (cs.dropWhile textChar) ++ [(CTokKind.tEof, "(eof)")]
        ∧ ts.getLast? = some ⟨.tEof, "(eof)", line + cs.count '\n', c2⟩)
    ∧ (∀ line col acc buf, ∃ ts c2,
        tokLoop .sWs line col buf acc cs = .ok ts
        ∧ ts.map projTok = acc.map projTok
            ++ (if buf.isEmpty then [] else [(CTokKind.tText, buf.asString)])
            ++ specToks cs ++ [(CTokKind.tEof, "(eof)")]
        ∧ ts.getLast? = some ⟨.tEof, "(eof)", line + cs.count '\n', c2⟩) := by
  induction cs with
  | nil =>
      refine ⟨?_, ?_, ?_⟩
      · intro line col acc
        exact ⟨acc ++ [⟨.tEof, "(eof)", line, col⟩], col, by simp [tokLoop],
          by simp [specToks, projTok], by simp [tokLoop]⟩
      · intro line col acc buf hbuf
        have hb : buf.isEmpty = false := by simpa [List.isEmpty_iff] using hbuf
        refine ⟨acc ++ [⟨.tText, buf.asString, line, col⟩, ⟨.tEof, "(eof)", line, col⟩],
          col, ?_, ?_, ?_⟩
        · simp [tokLoop, hb]
        · simp [specToks, projTok]
        · simp
      · intro line col acc buf
        cases buf with
        | nil =>
            exact ⟨acc ++ [⟨.tEof, "(eof)", line, col⟩], col, by simp [tokLoop],
              by simp [specToks, projTok], by simp⟩
        | cons b bs =>
            refine ⟨acc ++ [⟨.tText, (b :: bs).asString, line, col⟩,
              ⟨.tEof, "(eof)", line, col⟩], col, by simp [tokLoop], ?_, by simp⟩
            simp [specToks, projTok]
  | cons c cs ih =>
      obtain ⟨ih1, ih2, ih3⟩ := ih
      refine ⟨?_, ?_, ?_⟩
      · intro line col acc
        by_cases hw : wsChar c = true
        · by_cases hn : c = '\n'
          · obtain ⟨ts, c2, h1, h2, h3⟩ := ih3 (line + 1) (0 + 1) acc []
            refine ⟨ts, c2, by simpa [tokLoop, hw, hn] using h1, ?_, ?_⟩
            · rw [h2, specToks_ws hw]
              simp
            · rw [h3, hn]
              simp [List.count_cons]
              omega
          · obtain ⟨ts, c2, h1, h2, h3⟩ := ih3 line (col + 1) acc []
            refine ⟨ts, c2, by simpa [tokLoop, hw, hn] using h1, ?_, ?_⟩
            · rw [h2, specToks_ws hw]
              simp
            · rw [h3]
              simp [List.count_cons, Ne.symm hn]
        · have hwb : wsChar c = false := by simpa using hw
          have hnn : c ≠ '\n' := by rintro rfl; simp [wsChar] at hwb
          by_cases hp : c = '.'
          · subst hp
            obtain ⟨ts, c2, h1, h2, h3⟩ := ih1 line (col + 1)
              (acc ++ [⟨.tPeriod, ".", line, col⟩])
            refine ⟨ts, c2, by simpa [tokLoop, hw] using h1, ?_, ?_⟩
            · rw [h2, specToks_period]
              simp [projTok]
            · rw [h3]
              simp [List.count_cons]
          · obtain ⟨ts, c2, h1, h2, h3⟩ := ih2 line (col + 1) acc [c] (by simp)
            refine ⟨ts, c2, by simpa [tokLoop, hw, hp] using h1, ?_, ?_⟩
            · rw [h2, specToks_text hwb hp]
              simp
            · rw [h3]
              simp [List.count_cons, Ne.symm hnn]
      · intro line col acc buf hbuf
        have hb : buf.isEmpty = false := by simpa [List.isEmpty_iff] using hbuf
        by_cases hw : wsChar c = true
        · have htc : textChar c = false := by simp [textChar, hw]
          have hrw : ∀ l : List (CTokKind × String),
              (CTokKind.tText, (buf ++ ((c :: cs).takeWhile textChar)).asString) :: l
                = (CTokKind.tText, buf.asString) :: l := by
            intro l
            simp [List.takeWhile_cons, htc]
          by_cases hn : c = '\n'
          · obtain ⟨ts, c2, h1, h2, h3⟩ := ih3 (line + 1) (0 + 1) acc buf
            refine ⟨ts, c2, by simpa [tokLoop, hw, hn] using h1, ?_, ?_⟩
            · rw [h2, List.dropWhile_cons_of_neg (by simp [htc]), specToks_ws hw, hrw]
              simp [hb]
            · rw [h3, hn]
              simp [List.count_cons]
              omega
          · obtain ⟨ts, c2, h1, h2, h3⟩ := ih3 line (col + 1) acc buf
            refine ⟨ts, c2, by simpa [tokLoop, hw, hn] using h1, ?_, ?_⟩
            · rw [h2, List.dropWhile_cons_of_neg (by simp [htc]), specToks_ws hw, hrw]
              simp [hb]
            · rw [h3]
              simp [List.count_cons, Ne.symm hn]
        · have hwb : wsChar c = false := by simpa using hw
          have hnn : c ≠ '\n' := by rintro rfl; simp [wsChar] at hwb
          by_cases hp : c = '.'
          · subst hp
            have htc : textChar '.' = false := by decide
            obtain ⟨ts, c2, h1, h2, h3⟩ := ih1 line (col + 1)
              ((acc ++ [⟨.tText, buf.asString, line, col⟩]) ++ [⟨.tPeriod, ".", line, col⟩])
            refine ⟨ts, c2, by simpa [tokLoop, hw, hb] using h1, ?_, ?_⟩
            · rw [h2, List.takeWhile_cons_of_neg (by simp [htc]),
                List.dropWhile_cons_of_neg (by simp [htc]), specToks_period]
              simp [projTok]
            · rw [h3]
              simp [List.count_cons]
          · have htc : textChar c = true := by simp [textChar, hwb, hp]
            obtain ⟨ts, c2, h1, h2, h3⟩ := ih2 line (col + 1) acc (buf ++ [c]) (by simp)
            refine ⟨ts, c2, by simpa [tokLoop, hw, hp] using h1, ?_, ?_⟩
            · rw [h2, List.takeWhile_cons_of_pos (by simp [htc]),
                List.dropWhile_cons_of_pos (by simp [htc])]
              simp
            · rw [h3]
              simp [List.count_cons, Ne.symm hnn]
      · intro line col acc buf
        by_cases hw : wsChar c = true
        · by_cases hn : c = '\n'
          · obtain ⟨ts, c2, h1, h2, h3⟩ := ih3 (line + 1) (col + 1)
              (if buf.isEmpty then acc else acc ++ [⟨.tText, buf.asString, line, col⟩]) []
            refine ⟨ts, c2, ?_, ?_, ?_⟩
            · cases buf <;> simpa [tokLoop, hw, hn] using h1
            · rw [h2, specToks_ws hw]
              cases buf <;> simp [projTok]
            · rw [h3, hn]
              simp [List.count_cons]
              omega
          · obtain ⟨ts, c2, h1, h2, h3⟩ := ih3 line (col + 1)
              (if buf.isEmpty then acc else acc ++ [⟨.tText, buf.asString, line, col⟩]) []
            refine ⟨ts, c2, ?_, ?_, ?_⟩
            · cases buf <;> simpa [tokLoop, hw, hn] using h1
            · rw [h2, specToks_ws hw]
              cases buf <;> simp [projTok]
            · rw [h3]
              simp [List.count_cons, Ne.symm hn]
        · have hwb : wsChar c = false := by simpa using hw
          have hnn : c ≠ '\n' := by rintro rfl; simp [wsChar] at hwb
          by_cases hp : c = '.'
          · subst hp
            obtain ⟨ts, c2, h1, h2, h3⟩ := ih3 line (col + 1)
              ((if buf.isEmpty then acc else acc ++ [⟨.tText, buf.asString, line, col⟩])
                ++ [⟨.tPeriod, ".", line, col⟩]) []
            refine ⟨ts, c2, ?_, ?_, ?_⟩
            · cases buf <;> simpa [tokLoop, hw] using h1
            · rw [h2, specToks_period]
              cases buf <;> simp [projTok]
            · rw [h3]
              simp [List.count_cons]
          · obtain ⟨ts, c2, h1, h2, h3⟩ := ih2 line (col + 1)
              (if buf.isEmpty then acc else acc ++ [⟨.tText, buf.asString, line, col⟩])
              [c] (by simp)
            refine ⟨ts, c2, ?_, ?_, ?_⟩
            · cases buf <;> simpa [tokLoop, hw, hp] using h1
            · rw [h2, specToks_text hwb hp]
              cases buf <;> simp [projTok]
            · rw [h3]
              simp [List.count_cons, Ne.symm hnn]

/-- Claim C7, amended: for every input, `tokenize` succeeds and emits
exactly the TEXT tokens (maximal runs of non-whitespace non-period
characters) and single-character PERIOD tokens of the input, in order, with
exactly one trailing EOF token; every newline increments the line counter
(the EOF token's line is 1 plus the number of newlines).  Token `line`/`col`
fields record the position at which the token is flushed, not its start,
and the column is only reset by a newline seen outside a whitespace run. -/
theorem tokenize_structure (s : String) :
    ∃ ts c2, tokenize s = .ok ts
      ∧ ts.map projTok = specToks s.toList ++ [(CTokKind.tEof, "(eof)")]
      ∧ ts.getLast? = some ⟨.tEof, "(eof)", 1 + s.toList.count '\n', c2⟩ := by
  obtain ⟨ts, c2, h1, h2, h3⟩ := (tokLoop_run s.toList).1 1 1 []
  exact ⟨ts, c2, h1, by simpa using h2, h3⟩

/-- Claim C7, counterexample to the claim as stated: in `"A\nB"` the
character `A` sits on line 1 column 1, but the emitted token for it carries
line 2 column 1 (the flush position, after the newline has been consumed),
so tokens do not carry the line and column of their source position. -/
theorem tokenize_position_counterexample :
    tokenize "A\nB" =
      .ok [⟨.tText, "A", 2, 1⟩, ⟨.tText, "B", 2, 2⟩, ⟨.tEof, "(eof)", 2, 2⟩]
    ∧ (2 : Nat) ≠ 1 :=
  ⟨rfl, by decide⟩

end Cpycvt

namespace Cpycvt

/-! ## Invariant machinery for `build_node_tree` -/

theorem treeWfB_leaf (p : Node) : treeWfB (.mk p []) = true := by
  simp [treeWfB, childrenWfB, sameLevels]

theorem spineOk_cons_cons {f g : Frame} {rest : List Frame} :
    spineOk (f :: g :: rest) = true ↔
      g.payload.nodeLevel < f.payload.nodeLevel
      ∧ g.closed.all (fun t => rootLevel t == f.payload.nodeLevel && treeWfB t) = true
      ∧ spineOk (g :: rest) = true := by
  simp [spineOk, and_assoc]

/-- The two components of the builder-state invariant. -/
theorem stateOk_parts {st : Frame × List Frame} (h : stateOk st = true) :
    st.1.closed = [] ∧ spineOk (st.1 :: st.2) = true := by
  simpa [stateOk, List.isEmpty_iff] using h

/-- Appending a completed child to the head frame does not affect spine
well-formedness: only the frame above a given frame inspects its children. -/
theorem spineOk_addClosed_head (f : Frame) (u : TTree) (rest : List Frame) :
    spineOk (addClosed f u :: rest) = spineOk (f :: rest) := by
  cases rest with
  | nil => simp [spineOk, addClosed]
  | cons g rest => simp [spineOk, addClosed]

/-- Along a well-formed spine, every ancestor has a strictly smaller level
than the head frame. -/
theorem spineOk_gt : ∀ {rest : List Frame} {f : Frame}, spineOk (f :: rest) = true →
    ∀ g ∈ rest, g.payload.nodeLevel < f.payload.nodeLevel := by
  intro rest
  induction rest with
  | nil => intro f _ g hg; cases hg
  | cons g rest ih =>
      intro f h x hx
      obtain ⟨h1, _, h3⟩ := spineOk_cons_cons.mp h
      rcases List.mem_cons.mp hx with rfl | hx'
      · exact h1
      · exact lt_trans (ih h3 x hx') h1

theorem childrenWfB_of_all {lvl0 lvl : Nat} (hlt : lvl0 < lvl) :
    ∀ cs : List TTree, cs.all (fun t => rootLevel t == lvl && treeWfB t) = true →
      childrenWfB lvl0 cs = true := by
  intro cs
  induction cs with
  | nil => intro; simp [childrenWfB]
  | cons c cs ih =>
      intro h
      simp only [List.all_cons, Bool.and_eq_true, beq_iff_eq] at h
      simp only [childrenWfB, Bool.and_eq_true, decide_eq_true_iff]
      exact ⟨⟨h.1.1 ▸ hlt, h.1.2⟩, ih (by simpa using h.2)⟩

theorem sameLevels_of_all {lvl : Nat} :
    ∀ cs : List TTree, cs.all (fun t => rootLevel t == lvl && treeWfB t) = true →
      sameLevels cs = true := by
  intro cs
  cases cs with
  | nil => intro; simp [sameLevels]
  | cons c cs =>
      intro h
      simp only [List.all_cons, Bool.and_eq_true, beq_iff_eq] at h
      simp only [sameLevels, List.all_eq_true, beq_iff_eq]
      intro d hd
      have hd' := List.all_eq_true.mp h.2 d hd
      simp only [Bool.and_eq_true, beq_iff_eq] at hd'
      rw [h.1.1, hd'.1]

/-- A frame whose completed children are all well-formed subtrees rooted at
one level strictly above the frame's own level closes into a well-formed
subtree. -/
theorem treeWfB_closeFrame_of {f : Frame} {lvl : Nat}
    (hlt : f.payload.nodeLevel < lvl)
    (h : f.closed.all (fun t => rootLevel t == lvl && treeWfB t) = true) :
    treeWfB (closeFrame f) = true := by
  rw [closeFrame, treeWfB, Bool.and_eq_true]
  exact ⟨childrenWfB_of_all hlt f.closed h, sameLevels_of_all f.closed h⟩

/-- The upward walk of the lower-level branch preserves the builder state
invariant. -/
theorem walkLower_ok_stateOk :
    ∀ (fs : List Frame) (n : Node) (t : TTree) (st' : Frame × List Frame),
      spineOk fs = true →
      treeWfB t = true →
      (∀ f fs', fs = f :: fs' →
        f.closed.all (fun u => rootLevel u == rootLevel t && treeWfB u) = true
        ∧ f.payload.nodeLevel < rootLevel t) →
      walkLower n t fs = .ok st' →
      stateOk st' = true := by
  intro fs
  induction fs with
  | nil => intro n t st' _ _ _ hw; exact Except.noConfusion hw
  | cons f rest ih =>
      intro n t st' hs ht hh hw
      obtain ⟨hall, hflt⟩ := hh f rest rfl
      have hallt : ((addClosed f t).closed).all
          (fun u => rootLevel u == rootLevel t && treeWfB u) = true := by
        simp only [addClosed, List.all_append, Bool.and_eq_true]
        exact ⟨hall, by simp [ht]⟩
      have hwf' : treeWfB (closeFrame (addClosed f t)) = true :=
        treeWfB_closeFrame_of (f := addClosed f t) (by simpa [addClosed] using hflt) hallt
      have hroot' : rootLevel (closeFrame (addClosed f t)) = f.payload.nodeLevel := rfl
      simp only [walkLower, addClosed] at hw
      by_cases h0 : f.payload.nodeLevel = 0
      · rw [if_pos h0] at hw; exact Except.noConfusion hw
      · rw [if_neg h0] at hw
        by_cases hm : f.payload.nodeLevel = n.nodeLevel
        · rw [if_pos hm] at hw
          cases rest with
          | nil => exact Except.noConfusion hw
          | cons p rest' =>
              obtain ⟨hpf, hpall, hps⟩ := spineOk_cons_cons.mp hs
              cases Except.ok.inj hw
              simp only [stateOk, List.isEmpty_nil, Bool.true_and]
              apply (spineOk_cons_cons (f := ⟨n, []⟩)).mpr
              refine ⟨?_, ?_, ?_⟩
              · simpa [addClosed, hm] using hpf
              · simp only [addClosed, List.all_append, Bool.and_eq_true]
                refine ⟨by simpa [hm] using hpall, ?_⟩
                simp only [List.all_cons, List.all_nil, Bool.and_true, Bool.and_eq_true,
                  beq_iff_eq]
                exact ⟨by simpa [closeFrame, rootLevel, rootPayload, addClosed] using hm, hwf'⟩
              · show spineOk (addClosed p (closeFrame (addClosed f t)) :: rest') = true
                rw [spineOk_addClosed_head]
                exact hps
        · rw [if_neg hm] at hw
          cases rest with
          | nil => exact Except.noConfusion hw
          | cons p rest' =>
              obtain ⟨hpf, hpall, hps⟩ := spineOk_cons_cons.mp hs
              refine ih n (closeFrame (addClosed f t)) st' hps hwf' ?_ hw
              intro g fs' hgf
              cases hgf
              constructor
              · simpa [closeFrame, rootLevel, rootPayload, addClosed] using hpall
              · simpa [closeFrame, rootLevel, rootPayload, addClosed] using hpf

/-- One builder step preserves the state invariant. -/
theorem buildStep_ok_stateOk (st st' : Frame × List Frame) (n : Node)
    (hs : stateOk st = true) (h : buildStep st n = .ok st') : stateOk st' = true := by
  obtain ⟨cur, anc⟩ := st
  obtain ⟨hc0, hso0⟩ := stateOk_parts hs
  have hc : cur.closed = [] := hc0
  have hso : spineOk (cur :: anc) = true := hso0
  have hwcur : treeWfB (closeFrame cur) = true := by
    rw [closeFrame, hc]; exact treeWfB_leaf cur.payload
  rw [buildStep] at h
  by_cases h1 : cur.payload.nodeLevel < n.nodeLevel
  · rw [if_pos h1] at h
    cases Except.ok.inj h
    simp only [stateOk, List.isEmpty_nil, Bool.true_and]
    apply (spineOk_cons_cons (f := ⟨n, []⟩)).mpr
    exact ⟨h1, by simp [hc], hso⟩
  · rw [if_neg h1] at h
    by_cases h2 : n.nodeLevel = cur.payload.nodeLevel
    · rw [if_pos h2] at h
      cases anc with
      | nil => exact Except.noConfusion h
      | cons p rest =>
          obtain ⟨hpf, hpall, hps⟩ := spineOk_cons_cons.mp hso
          cases Except.ok.inj h
          simp only [stateOk, List.isEmpty_nil, Bool.true_and]
          apply (spineOk_cons_cons (f := ⟨n, []⟩)).mpr
          refine ⟨?_, ?_, ?_⟩
          · simpa [addClosed, h2] using hpf
          · simp only [addClosed, List.all_append, Bool.and_eq_true]
            refine ⟨by simpa [h2] using hpall, ?_⟩
            simp only [List.all_cons, List.all_nil, Bool.and_true, Bool.and_eq_true, beq_iff_eq]
            exact ⟨by simp [closeFrame, rootLevel, rootPayload, h2], hwcur⟩
          · rw [spineOk_addClosed_head]
            exact hps
    · rw [if_neg h2] at h
      cases anc with
      | nil => exact Except.noConfusion h
      | cons p rest =>
          obtain ⟨hpf, hpall, hps⟩ := spineOk_cons_cons.mp hso
          refine walkLower_ok_stateOk (p :: rest) n (closeFrame cur) st' hps hwcur ?_ h
          intro g fs' hgf
          cases hgf
          constructor
          · simpa [closeFrame, rootLevel, rootPayload] using hpall
          · simpa [closeFrame, rootLevel, rootPayload] using hpf

theorem stateOk_init : stateOk initState = true := by
  simp [stateOk, initState, spineOk]

/-- Every state reached from the initial state satisfies the invariant. -/
theorem buildSteps_ok_stateOk :
    ∀ (ns : List Node) (st st' : Frame × List Frame),
      stateOk st = true → buildSteps st ns = .ok st' → stateOk st' = true := by
  intro ns
  induction ns with
  | nil => intro st st' hs h; cases Except.ok.inj h; exact hs
  | cons n ns ih =>
      intro st st' hs h
      rw [buildSteps] at h
      cases hstep : buildStep st n with
      | error e => rw [hstep] at h; exact Except.noConfusion h
      | ok st1 =>
          rw [hstep] at h
          exact ih st1 st' (buildStep_ok_stateOk st st1 n hs hstep) h

/-- Closing the whole spine of a well-formed state yields a well-formed
tree rooted at the synthetic root node. -/
theorem collapse_wf :
    ∀ (anc : List Frame) (cur : Frame),
      spineOk (cur :: anc) = true → treeWfB (closeFrame cur) = true →
      treeWfB (collapse cur anc) = true ∧ rootPayload (collapse cur anc) = rootNode := by
  intro anc
  induction anc with
  | nil =>
      intro cur hs hw
      refine ⟨by rw [collapse]; exact hw, ?_⟩
      rw [collapse, closeFrame, rootPayload]
      simpa [spineOk] using hs
  | cons f rest ih =>
      intro cur hs hw
      obtain ⟨hpf, hpall, hps⟩ := spineOk_cons_cons.mp hs
      rw [collapse]
      have hallt : ((addClosed f (closeFrame cur)).closed).all
          (fun u => rootLevel u == cur.payload.nodeLevel && treeWfB u) = true := by
        simp only [addClosed, List.all_append, Bool.and_eq_true]
        refine ⟨hpall, ?_⟩
        simp only [List.all_cons, List.all_nil, Bool.and_true, Bool.and_eq_true, beq_iff_eq]
        exact ⟨rfl, hw⟩
      have hwf' : treeWfB (closeFrame (addClosed f (closeFrame cur))) = true :=
        treeWfB_closeFrame_of (f := addClosed f (closeFrame cur))
          (by simpa [addClosed] using hpf) hallt
      have hso' : spineOk (addClosed f (closeFrame cur) :: rest) = true := by
        rw [spineOk_addClosed_head]; exact hps
      exact ih (addClosed f (closeFrame cur)) hso' hwf'

/-- Claim C8: every tree returned by `build_node_tree` satisfies the
`TreeNode` invariant — each child's level is strictly greater than its
parent's, all children of one parent share a single level — and is rooted
at the synthetic level-0 root node. -/
theorem build_tree_invariant (ns : List Node) (t : TTree)
    (h : buildNodeTree ns = .ok t) :
    treeWfB t = true ∧ rootPayload t = rootNode := by
  rw [buildNodeTree] at h
  cases hsteps : buildSteps initState ns with
  | error e => rw [hsteps] at h; exact Except.noConfusion h
  | ok st =>
      obtain ⟨cur, anc⟩ := st
      rw [hsteps] at h
      cases Except.ok.inj h
      have hok := buildSteps_ok_stateOk ns initState (cur, anc) stateOk_init hsteps
      obtain ⟨hc0, hso0⟩ := stateOk_parts hok
      have hc : cur.closed = [] := hc0
      have hso : spineOk (cur :: anc) = true := hso0
      have hwcur : treeWfB (closeFrame cur) = true := by
        rw [closeFrame, hc]; exact treeWfB_leaf cur.payload
      exact collapse_wf anc cur hso hwcur

/-- Witness for C8 on a concrete node list. -/
theorem build_tree_invariant_witness :
    treeWfB (.mk rootNode [.mk { nodeName := "A", nodeLevel := 1, nodeType := .nRecord }
      [.mk { nodeName := "B", nodeLevel := 5, nodeType := .nRecord } []]]) = true
    ∧ rootPayload (.mk rootNode [.mk { nodeName := "A", nodeLevel := 1, nodeType := .nRecord }
      [.mk { nodeName := "B", nodeLevel := 5, nodeType := .nRecord } []]]) = rootNode :=
  build_tree_invariant
    [{ nodeName := "A", nodeLevel := 1, nodeType := .nRecord },
     { nodeName := "B", nodeLevel := 5, nodeType := .nRecord }] _ rfl

end Cpycvt

namespace Cpycvt

/-- On a well-formed ancestor chain that contains a frame at exactly the
new node's (nonzero) level, the upward walk stops at the first such frame,
having passed only strictly higher levels, and attaches the new node as a
child of that frame's parent, right after the closed subtree rooted at the
matched frame. -/
theorem walkLower_found :
    ∀ (fs : List Frame) (n : Node) (t : TTree),
      spineOk fs = true → n.nodeLevel ≠ 0 →
      n.nodeLevel ∈ fs.map (fun f => f.payload.nodeLevel) →
      ∃ fs1 f p rest t',
        fs = fs1 ++ f :: p :: rest
        ∧ (∀ g ∈ fs1, n.nodeLevel < g.payload.nodeLevel)
        ∧ f.payload.nodeLevel = n.nodeLevel
        ∧ rootPayload t' = f.payload
        ∧ walkLower n t fs = .ok (⟨n, []⟩, addClosed p t' :: rest) := by
  intro fs
  induction fs with
  | nil => intro n t _ _ hmem; simp at hmem
  | cons f rest ih =>
      intro n t hs hn0 hmem
      by_cases h0 : f.payload.nodeLevel = 0
      · exfalso
        cases rest with
        | nil =>
            have : f.payload = rootNode := by simpa [spineOk] using hs
            simp only [List.map_cons, List.map_nil, List.mem_singleton] at hmem
            exact hn0 (hmem.trans h0)
        | cons g rest' =>
            obtain ⟨h1, _, _⟩ := spineOk_cons_cons.mp hs
            omega
      · by_cases hm : f.payload.nodeLevel = n.nodeLevel
        · cases rest with
          | nil =>
              exfalso
              have : f.payload = rootNode := by simpa [spineOk] using hs
              exact h0 (by simp [this, rootNode])
          | cons p rest' =>
              refine ⟨[], f, p, rest', closeFrame (addClosed f t), rfl, by simp, hm, rfl, ?_⟩
              simp only [walkLower, addClosed]
              rw [if_neg h0, if_pos hm]
        · have hmem' : n.nodeLevel ∈ rest.map (fun f => f.payload.nodeLevel) := by
            simp only [List.map_cons, List.mem_cons] at hmem
            rcases hmem with h | h
            · exact absurd h.symm hm
            · exact h
          cases rest with
          | nil => simp at hmem'
          | cons p rest' =>
              obtain ⟨hpf, _, hps⟩ := spineOk_cons_cons.mp hs
              obtain ⟨fs1, f0, p0, rest0, t', heq, hgt, hlvl, hroot, hwalk⟩ :=
                ih n (closeFrame (addClosed f t)) hps hn0 hmem'
              refine ⟨f :: fs1, f0, p0, rest0, t', by rw [heq, List.cons_append], ?_,
                hlvl, hroot, ?_⟩
              · intro g hg
                rcases List.mem_cons.mp hg with rfl | hg'
                · have hf0mem : f0 ∈ p :: rest' := heq ▸ List.mem_append_right fs1
                    (List.mem_cons_self f0 (p0 :: rest0))
                  have := spineOk_gt hs f0 (List.mem_cons.mpr (by
                    rcases List.mem_cons.mp hf0mem with h | h
                    · exact Or.inl h
                    · exact Or.inr h))
                  omega
                · exact hgt g hg'
              · simp only [walkLower, addClosed]
                rw [if_neg h0, if_neg hm]
                simpa [closeFrame, addClosed] using hwalk

/-- On a well-formed ancestor chain, if the new node's level is zero or
matches no ancestor level, the walk reaches the level-0 root and raises the
structural `CopybookException`. -/
theorem walkLower_notfound :
    ∀ (fs : List Frame) (n : Node) (t : TTree),
      spineOk fs = true →
      (n.nodeLevel = 0 ∨ n.nodeLevel ∉ fs.map (fun f => f.payload.nodeLevel)) →
      walkLower n t fs = .error .structural := by
  intro fs
  induction fs with
  | nil => intro n t hs _; simp [spineOk] at hs
  | cons f rest ih =>
      intro n t hs hcond
      by_cases h0 : f.payload.nodeLevel = 0
      · simp only [walkLower, addClosed]
        rw [if_pos h0]
      · have hm : ¬ f.payload.nodeLevel = n.nodeLevel := by
          rcases hcond with h | h
          · omega
          · intro he
            exact h (by simp only [List.map_cons, List.mem_cons]; exact Or.inl he.symm)
        simp only [walkLower, addClosed]
        rw [if_neg h0, if_neg hm]
        cases rest with
        | nil =>
            exfalso
            have : f.payload = rootNode := by simpa [spineOk] using hs
            rw [this] at h0
            exact h0 rfl
        | cons p rest' =>
            obtain ⟨_, _, hps⟩ := spineOk_cons_cons.mp hs
            refine ih n (closeFrame (addClosed f t)) hps ?_
            rcases hcond with h | h
            · exact Or.inl h
            · refine Or.inr (fun hmem => h ?_)
              simp only [List.map_cons, List.mem_cons] at hmem ⊢
              exact Or.inr hmem

/-- Claim C4: whenever the next node's level is strictly lower than the
cursor's, the builder walks upward from the cursor's parent; if a (nonzero)
ancestor level equals the node's level, the nearest such ancestor is found
— every frame skipped on the way has a strictly higher level, so arbitrary
level skips are tolerated — and the node is attached as a child of that
ancestor's parent, directly after the closed subtree rooted at the matched
ancestor (its new sibling); if the level-0 root is reached without a match,
the step fails with the structural `CopybookException`. -/
theorem build_lower_level_walk (pre : List Node) (st : Frame × List Frame) (n : Node)
    (hpre : buildSteps initState pre = .ok st)
    (hlt : n.nodeLevel < cursorLevel st) :
    ((n.nodeLevel ≠ 0 ∧ n.nodeLevel ∈ ancestorLevels st) →
      ∃ fs1 f p rest t',
        st.2 = fs1 ++ f :: p :: rest
        ∧ (∀ g ∈ fs1, n.nodeLevel < g.payload.nodeLevel)
        ∧ f.payload.nodeLevel = n.nodeLevel
        ∧ rootPayload t' = f.payload
        ∧ buildStep st n = .ok (⟨n, []⟩, addClosed p t' :: rest))
    ∧ ((n.nodeLevel = 0 ∨ n.nodeLevel ∉ ancestorLevels st) →
      buildStep st n = .error .structural) := by
  have hok := buildSteps_ok_stateOk pre initState st stateOk_init hpre
  obtain ⟨cur, anc⟩ := st
  obtain ⟨hc0, hso0⟩ := stateOk_parts hok
  have hso : spineOk (cur :: anc) = true := hso0
  have hlt' : n.nodeLevel < cur.payload.nodeLevel := hlt
  have hstep : buildStep (cur, anc) n = walkLower n (closeFrame cur) anc := by
    rw [buildStep]
    dsimp only
    rw [if_neg (by omega), if_neg (by omega)]
  have hanc : spineOk anc = true := by
    cases anc with
    | nil =>
        exfalso
        have : cur.payload = rootNode := by simpa [spineOk] using hso
        rw [this] at hlt'
        simp [rootNode] at hlt'
    | cons p rest => exact (spineOk_cons_cons.mp hso).2.2
  constructor
  · intro ⟨hn0, hmem⟩
    obtain ⟨fs1, f, p, rest, t', heq, hgt, hlvl, hroot, hwalk⟩ :=
      walkLower_found anc n (closeFrame cur) hanc hn0 hmem
    exact ⟨fs1, f, p, rest, t', heq, hgt, hlvl, hroot, by rw [hstep]; exact hwalk⟩
  · intro hcond
    rw [hstep]
    exact walkLower_notfound anc n (closeFrame cur) hanc hcond

/-- Witness for C4: after `[A (level 5), B (level 10)]` the cursor sits at
level 10; a level-5 node walks up to `A` and is attached as its sibling
under the root. -/
theorem build_lower_level_walk_witness :
    ∃ fs1 f p rest t',
      ([⟨{ nodeName := "A", nodeLevel := 5, nodeType := .nRecord }, []⟩,
        ⟨rootNode, []⟩] : List Frame) = fs1 ++ f :: p :: rest
      ∧ (∀ g ∈ fs1,
          ({ nodeName := "C", nodeLevel := 5, nodeType := .nRecord } : Node).nodeLevel
            < g.payload.nodeLevel)
      ∧ f.payload.nodeLevel
          = ({ nodeName := "C", nodeLevel := 5, nodeType := .nRecord } : Node).nodeLevel
      ∧ rootPayload t' = f.payload
      ∧ buildStep
          (⟨{ nodeName := "B", nodeLevel := 10, nodeType := .nRecord }, []⟩,
            [⟨{ nodeName := "A", nodeLevel := 5, nodeType := .nRecord }, []⟩,
             ⟨rootNode, []⟩])
          { nodeName := "C", nodeLevel := 5, nodeType := .nRecord }
          = .ok (⟨{ nodeName := "C", nodeLevel := 5, nodeType := .nRecord }, []⟩,
              addClosed p t' :: rest) :=
  (build_lower_level_walk
    [{ nodeName := "A", nodeLevel := 5, nodeType := .nRecord },
     { nodeName := "B", nodeLevel := 10, nodeType := .nRecord }]
    (⟨{ nodeName := "B", nodeLevel := 10, nodeType := .nRecord }, []⟩,
      [⟨{ nodeName := "A", nodeLevel := 5, nodeType := .nRecord }, []⟩,
       ⟨rootNode, []⟩])
    { nodeName := "C", nodeLevel := 5, nodeType := .nRecord }
    rfl (by decide)).1 ⟨by decide, by decide⟩

end Cpycvt

namespace Cpycvt

/-- The upward walk always fails for a level-0 node: the level-0 test fires
before the level match is ever consulted. -/
theorem walkLower_level_zero :
    ∀ (fs : List Frame) (n : Node) (t : TTree), n.nodeLevel = 0 →
      ∃ e, walkLower n t fs = .error e := by
  intro fs
  induction fs with
  | nil => intro n t _; exact ⟨.attributeError, rfl⟩
  | cons f rest ih =>
      intro n t hn
      by_cases h0 : f.payload.nodeLevel = 0
      · refine ⟨.structural, ?_⟩
        simp only [walkLower, addClosed]
        rw [if_pos h0]
      · obtain ⟨e, he⟩ := ih n (closeFrame (addClosed f t)) hn
        refine ⟨e, ?_⟩
        simp only [walkLower, addClosed]
        rw [if_neg h0, if_neg (by omega)]
        simpa [closeFrame, addClosed] using he

/-- In any invariant-respecting state, the builder step on a level-0 node
fails: at the root the equal-level branch dereferences the root's `None`
parent, and elsewhere the lower-level walk stops at the root. -/
theorem buildStep_level_zero (st : Frame × List Frame) (n : Node)
    (hs : stateOk st = true) (hn : n.nodeLevel = 0) :
    ∃ e, buildStep st n = .error e := by
  obtain ⟨cur, anc⟩ := st
  obtain ⟨hc0, hso0⟩ := stateOk_parts hs
  have hso : spineOk (cur :: anc) = true := hso0
  by_cases hcl : cur.payload.nodeLevel = 0
  · have hanc : anc = [] := by
      cases anc with
      | nil => rfl
      | cons p rest =>
          obtain ⟨h1, _, _⟩ := spineOk_cons_cons.mp hso
          omega
      
    refine ⟨.attributeError, ?_⟩
    subst hanc
    rw [buildStep]
    dsimp only
    rw [if_neg (by omega), if_pos (by omega)]
  · obtain ⟨e, he⟩ := walkLower_level_zero anc n (closeFrame cur) hn
    refine ⟨e, ?_⟩
    rw [buildStep]
    dsimp only
    rw [if_neg (by omega), if_neg (by omega)]
    exact he

/-- A level-0 node anywhere in the list makes the loop fail. -/
theorem buildSteps_error_of_mem_zero :
    ∀ (ns : List Node) (st : Frame × List Frame), stateOk st = true →
      (∃ n ∈ ns, n.nodeLevel = 0) → ∃ e, buildSteps st ns = .error e := by
  intro ns
  induction ns with
  | nil => intro st _ hm; simp at hm
  | cons n rest ih =>
      intro st hs hm
      cases hstep : buildStep st n with
      | error e => exact ⟨e, by rw [buildSteps, hstep]⟩
      | ok st1 =>
          obtain ⟨m, hmem, hm0⟩ := hm
          rcases List.mem_cons.mp hmem with rfl | hmem'
          · obtain ⟨e, he⟩ := buildStep_level_zero st m hs hm0
            rw [hstep] at he
            exact Except.noConfusion he
          · obtain ⟨e, he⟩ := ih st1 (buildStep_ok_stateOk st st1 n hs hstep) ⟨m, hmem', hm0⟩
            exact ⟨e, by rw [buildSteps, hstep]; exact he⟩

/-- Claim C10: a level-0 node can never be attached by `build_node_tree`.
If the first node has level 0 (equal to the synthetic root's level), the
equal-level branch dereferences the root's `None` parent and raises
`AttributeError` rather than the structural `CopybookException`; and any
node list containing a level-0 node makes `build_node_tree` raise. -/
theorem level_zero_never_attached :
    (∀ (n : Node) (rest : List Node), n.nodeLevel = 0 →
      buildNodeTree (n :: rest) = .error .attributeError)
    ∧ (∀ ns : List Node, (∃ n ∈ ns, n.nodeLevel = 0) →
      ∃ e, buildNodeTree ns = .error e) := by
  constructor
  · intro n rest hn
    rw [buildNodeTree, buildSteps, buildStep]
    dsimp only [initState]
    rw [if_neg (by simp [rootNode]; omega), if_pos (by simp [rootNode, hn])]
  · intro ns hm
    obtain ⟨e, he⟩ := buildSteps_error_of_mem_zero ns initState stateOk_init hm
    exact ⟨e, by rw [buildNodeTree, he]⟩

/-- Witness for C10 at concrete node lists. -/
theorem level_zero_never_attached_witness :
    buildNodeTree [{ nodeName := "Z", nodeLevel := 0, nodeType := .nRecord }]
      = .error .attributeError
    ∧ ∃ e, buildNodeTree
        [{ nodeName := "A", nodeLevel := 5, nodeType := .nRecord },
         { nodeName := "Z", nodeLevel := 0, nodeType := .nRecord }] = .error e :=
  ⟨level_zero_never_attached.1 { nodeName := "Z", nodeLevel := 0, nodeType := .nRecord } [] rfl,
   level_zero_never_attached.2
     [{ nodeName := "A", nodeLevel := 5, nodeType := .nRecord },
      { nodeName := "Z", nodeLevel := 0, nodeType := .nRecord }]
     ⟨{ nodeName := "Z", nodeLevel := 0, nodeType := .nRecord }, by simp, rfl⟩⟩

end Cpycvt

namespace Cpycvt

/-- Witness for the tokenizer structure theorem at a concrete input. -/
theorem tokenize_structure_witness :
    ∃ ts c2, tokenize "01 REC." = .ok ts
      ∧ ts.map projTok = specToks "01 REC.".toList ++ [(CTokKind.tEof, "(eof)")]
      ∧ ts.getLast? = some ⟨.tEof, "(eof)", 1 + "01 REC.".toList.count '\n', c2⟩ :=
  tokenize_structure "01 REC."

end Cpycvt
